import Mathlib

/-!
Verification of the cdk8s `Metadata` resolver
(src/packages/cdk8s/lib/metadata.ts).

The TypeScript module stores per-scope label and namespace overrides in a
`Metadata` construct attached as a child (under a reserved id) of the scope it
annotates, and resolves effective values by walking parent links toward the
root.

Embedding choices:
* A scope is identified with its root-ward path, a `List Nat` of construct ids
  from the node up to the root.  The empty list plays the role of the absent
  (`undefined`) scope that the parent link of a root yields, so `parent-of`
  is `List.tail` and the tree is finite and acyclic by construction.
* The per-scope metadata attachment is a side table `List Nat → Option
  MetadataRecord` together with a child-id list per scope (the design notes of
  the module bless the side-table representation as observationally
  identical).
* JavaScript objects (`Record<string, string | undefined>`) are ordered
  association lists.  Object spread `{...a, ...b}`, key-indexed assignment,
  `Object.keys(...).sort()` and `Object.entries` filtering are modelled
  faithfully, including insertion-order behaviour and the fact that a
  property explicitly set to `undefined` is a present property.
-/

/-! ## JavaScript object model -/

/-- JS `Record<string, string | undefined>` (the `Labels` type of the source):
an ordered association list whose values may be the `undefined` sentinel. -/
abbrev Labels := List (String × Option String)

/-- Property read `obj[k]`: the value at the first occurrence of key `k`. -/
def objGet {α : Type} (l : List (String × α)) (k : String) : Option α :=
  (l.find? (fun p => p.1 == k)).map (fun p => p.2)

/-- Property write `obj[k] = v`: update in place when the key exists,
otherwise append the new property (JS insertion order). -/
def objSet {α : Type} (l : List (String × α)) (k : String) (v : α) :
    List (String × α) :=
  if l.any (fun p => p.1 == k) then
    l.map (fun p => if p.1 == k then (k, v) else p)
  else l ++ [(k, v)]

/-- Object spread `{...a, ...b}`: assign every property of `b` over `a`. -/
def spread {α : Type} (a b : List (String × α)) : List (String × α) :=
  b.foldl (fun acc p => objSet acc p.1 p.2) a

/-- The value at the last occurrence of key `k` (what spreading a list of
properties leaves behind when keys repeat). -/
def lastGet {α : Type} (l : List (String × α)) (k : String) : Option α :=
  objGet l.reverse k

/-- The key list of an object. -/
def keys {α : Type} (l : List (String × α)) : List String :=
  l.map Prod.fst

/-- Strict lexicographic order on chararacter lists, as JS string comparison
orders the keys handed to `Array.prototype.sort`. -/
def charListLt : List Char → List Char → Bool
  | [], [] => false
  | [], _ :: _ => true
  | _ :: _, [] => false
  | a :: as, b :: bs => a < b || (a == b && charListLt as bs)

/-- Key comparison used by `sortByKey`. -/
def keyLt (a b : String) : Bool := charListLt a.data b.data

/-- Insert one property into a key-sorted list, keeping it sorted. -/
def insertPair (p : String × Option String) : Labels → Labels
  | [] => [p]
  | q :: rest => if keyLt p.1 q.1 then p :: q :: rest else q :: insertPair p rest

/-- Source `sortByKey`: rebuild the object with its keys in ascending order
(`Object.keys(obj).sort()` followed by re-insertion).  Modelled as insertion
sort, which computes the same ascending rearrangement. -/
def sortByKey (obj : Labels) : Labels :=
  obj.foldr insertPair []

/-- Source `filterUndefined`: keep exactly the properties whose value is
defined, producing a `Record<string, string>`. -/
def filterUndefined (obj : Labels) : List (String × String) :=
  obj.filterMap (fun p => match p.2 with
    | some v => some (p.1, v)
    | none => none)

/-- Lift a fully-defined record into the `Labels` type (spreading a
`Record<string, string>` into a `Labels` position). -/
def toLabels (m : List (String × String)) : Labels :=
  m.map (fun p => (p.1, some p.2))

/-! ## Data model: records, tree, operations -/

/-- The mutable fields of the `Metadata` construct: `labels?: Labels` and
`namespace?: string`, both initially `undefined`.  The `namespace` field is
called `nspace` because `namespace` is reserved in Lean. -/
structure MetadataRecord where
  labels : Option Labels
  nspace : Option String
deriving DecidableEq

/-- A freshly constructed `Metadata` record: both fields `undefined`. -/
def emptyRecord : MetadataRecord := ⟨none, none⟩

/-- The scope tree: per scope (identified by its root-ward path), the list of
child ids in attachment order and the optional attached metadata record. -/
structure ScopeTree where
  children : List Nat → List String
  meta : List Nat → Option MetadataRecord

/-- The reserved child id under which the record is attached. -/
def metadataId : String := "$cdk8s.Metadata"

/-- A tree with no children and no metadata anywhere. -/
def emptyTree : ScopeTree := { children := fun _ => [], meta := fun _ => none }

/-- Source `Metadata.tryGetMetadata`: read the metadata child of `scope`
directly (no walking). -/
def tryGetMetadata (t : ScopeTree) (s : List Nat) : Option MetadataRecord :=
  t.meta s

/-- Source `Metadata.lookupMetadata`: the first record attached at the scope
itself or at an ancestor; `none` once the walk runs off the root. -/
def lookupMetadata (t : ScopeTree) : List Nat → Option MetadataRecord
  | [] => none
  | s :: rest =>
    match tryGetMetadata t (s :: rest) with
    | some m => some m
    | none => lookupMetadata t rest

/-- Source `Metadata.of`: return the record attached to `scope`, attaching a
fresh one (as a new child under the reserved id) when absent.  The returned
handle is the scope path the record lives at. -/
def Metadata.of (t : ScopeTree) (s : List Nat) : ScopeTree × List Nat :=
  match tryGetMetadata t s with
  | some _ => (t, s)
  | none =>
    ({ children := fun p => if p = s then t.children p ++ [metadataId] else t.children p,
       meta := fun p => if p = s then some emptyRecord else t.meta p }, s)

/-- The final normalization of `resolveNamespace`:
`resolved !== '' ? resolved : undefined`. -/
def nsGuard (resolved : Option String) : Option String :=
  if resolved = some "" then none else resolved

/-- Source `Metadata.resolveNamespace`: nearest-record namespace, falling back
to the parent scope when that record leaves the namespace `undefined`, with an
empty-string result normalized to `undefined`. -/
def resolveNamespace (t : ScopeTree) : List Nat → Option String
  | [] => none
  | s :: rest =>
    nsGuard (match (lookupMetadata t (s :: rest)).bind (fun m => m.nspace) with
      | some v => some v
      | none => resolveNamespace t rest)

/-- Source `Metadata.resolveLabels`: spread the labels of the nearest record
over the recursively resolved labels of the parent, then drop `undefined`
values. -/
def resolveLabels (t : ScopeTree) : List Nat → List (String × String)
  | [] => []
  | s :: rest =>
    filterUndefined (spread (toLabels (resolveLabels t rest))
      (((lookupMetadata t (s :: rest)).bind (fun m => m.labels)).getD []))

/-- Source `Metadata.addLabels`: spread the input over the existing overrides
and re-sort by key. -/
def addLabels (r : MetadataRecord) (ls : Labels) : MetadataRecord :=
  { r with labels := some (sortByKey (spread (r.labels.getD []) ls)) }

/-- Source `Metadata.removeLabel`. -/
def removeLabel (r : MetadataRecord) (label : String) : MetadataRecord :=
  addLabels r [(label, none)]

/-- Source `Metadata.addNamespace`: `undefined` is stored as the empty
string; any string value, the empty string included, is stored verbatim. -/
def addNamespace (r : MetadataRecord) (value : Option String) : MetadataRecord :=
  { r with nspace := some (match value with
      | none => ""
      | some v => v) }

/-- Source `Metadata.removeNamespace`. -/
def removeNamespace (r : MetadataRecord) : MetadataRecord :=
  addNamespace r none

/-- Replace (or create) the record attached at one scope; how the mutators on
a record handle obtained from `Metadata.of` act on the tree. -/
def withRecord (t : ScopeTree) (s : List Nat) (r : MetadataRecord) : ScopeTree :=
  { t with meta := fun p => if p = s then some r else t.meta p }

/-- A sequence of `addLabels` calls applied to one record (a `removeLabel`
call is the singleton input with an `undefined` value). -/
def applyOps (r : MetadataRecord) : List Labels → MetadataRecord
  | [] => r
  | ls :: rest => applyOps (addLabels r ls) rest

/-! ## Definitions written from the words of the specification

These are the comparison points for the refinement-style claims; each follows
the prose of the specification rather than the code. -/

/-- Modelled from the spec: walk from the scope toward the root and return the
namespace override of the first ancestor-or-self whose attached record has a
non-unset override. -/
def nearestDecision (t : ScopeTree) : List Nat → Option String
  | [] => none
  | s :: rest =>
    match (t.meta (s :: rest)).bind (fun m => m.nspace) with
    | some v => some v
    | none => nearestDecision t rest

/-- Modelled from the spec: the resolved namespace is absent when no
ancestor-or-self carries a non-unset override or when the nearest decision is
the tombstone, and the stored string otherwise. -/
def specResolveNamespace (t : ScopeTree) (p : List Nat) : Option String :=
  match nearestDecision t p with
  | some v => if v = "" then none else some v
  | none => none

/-- Modelled from the spec: overlay label overrides onto an already resolved
mapping; a defined value replaces the entry, an unset value deletes it. -/
def overlayDel (base : List (String × String)) (ov : Labels) :
    List (String × String) :=
  ov.foldl (fun acc p => match p.2 with
    | none => acc.filter (fun q => !(q.1 == p.1))
    | some v => objSet acc p.1 v) base

/-- Modelled from the spec: resolve labels by overlaying the overrides of the
record attached directly to the scope (nothing when absent) onto the
recursively resolved mapping of the parent. -/
def specResolveLabels (t : ScopeTree) : List Nat → List (String × String)
  | [] => []
  | s :: rest =>
    overlayDel (specResolveLabels t rest)
      (((t.meta (s :: rest)).bind (fun m => m.labels)).getD [])

/-- The variant of `resolveLabels` that spreads only the labels of the record
attached directly to the scope (`tryGetMetadata`) instead of the nearest
ancestor-or-self record (`lookupMetadata`). -/
def directResolveLabels (t : ScopeTree) : List Nat → List (String × String)
  | [] => []
  | s :: rest =>
    filterUndefined (spread (toLabels (directResolveLabels t rest))
      (((tryGetMetadata t (s :: rest)).bind (fun m => m.labels)).getD []))

/-! ## State-threaded translations of the read operations

The source read operations only ever consult the tree.  To make that a
theorem rather than a typing convention, these versions thread the tree
through every step exactly as the call sequence of the source does, so that
each can in principle return a modified tree. -/

/-- `tryGetMetadata` as a state transformer: one read, no write. -/
def tryGetMetadataSt (t : ScopeTree) (s : List Nat) :
    Option MetadataRecord × ScopeTree :=
  (t.meta s, t)

/-- `lookupMetadata` with the tree threaded through each step. -/
def lookupMetadataSt : ScopeTree → List Nat → Option MetadataRecord × ScopeTree
  | t, [] => (none, t)
  | t, s :: rest =>
    match tryGetMetadataSt t (s :: rest) with
    | (some m, t1) => (some m, t1)
    | (none, t1) => lookupMetadataSt t1 rest

/-- `resolveNamespace` with the tree threaded through each step. -/
def resolveNamespaceSt : ScopeTree → List Nat → Option String × ScopeTree
  | t, [] => (none, t)
  | t, s :: rest =>
    let r1 := lookupMetadataSt t (s :: rest)
    match r1.1.bind (fun m => m.nspace) with
    | some v => (nsGuard (some v), r1.2)
    | none =>
      let r2 := resolveNamespaceSt r1.2 rest
      (nsGuard r2.1, r2.2)

/-- `resolveLabels` with the tree threaded through each step. -/
def resolveLabelsSt : ScopeTree → List Nat → List (String × String) × ScopeTree
  | t, [] => ([], t)
  | t, s :: rest =>
    let r1 := resolveLabelsSt t rest
    let r2 := lookupMetadataSt r1.2 (s :: rest)
    (filterUndefined (spread (toLabels r1.1) ((r2.1.bind (fun m => m.labels)).getD [])),
      r2.2)

/-! ## Sanity checks on concrete inputs -/

example : sortByKey [("zzzz", some "1"), ("aaaa", some "2"), ("bbbb", none)]
    = [("aaaa", some "2"), ("bbbb", none), ("zzzz", some "1")] := by decide

example : spread [("a", some "1")] [("a", none), ("b", some "2")]
    = [("a", none), ("b", some "2")] := by decide

example : filterUndefined [("a", none), ("b", some "2")] = [("b", "2")] := by decide

example : resolveLabels emptyTree [0] = [] := by decide

example : resolveNamespace (withRecord emptyTree [0] ⟨none, some "ns"⟩) [1, 0]
    = some "ns" := by decide

example : resolveNamespace
    (withRecord (withRecord emptyTree [0] ⟨none, some "root"⟩) [1, 0] ⟨none, some ""⟩)
    [2, 1, 0] = none := by decide

/-! ## Pointwise lemmas about the object model -/

theorem objGet_nil {α : Type} (k : String) : objGet ([] : List (String × α)) k = none := rfl

theorem objGet_cons {α : Type} (k0 : String) (v0 : α) (l : List (String × α)) (k : String) :
    objGet ((k0, v0) :: l) k = if k0 == k then some v0 else objGet l k := by
  cases h : k0 == k <;> simp [objGet, List.find?_cons, h]

theorem objGet_append {α : Type} (l1 l2 : List (String × α)) (k : String) :
    objGet (l1 ++ l2) k =
      match objGet l1 k with
      | some v => some v
      | none => objGet l2 k := by
  induction l1 with
  | nil => simp [objGet_nil]
  | cons p rest ih =>
    obtain ⟨k0, v0⟩ := p
    rw [List.cons_append, objGet_cons, objGet_cons]
    cases h : k0 == k <;> simp [ih]

theorem keys_cons {α : Type} (k0 : String) (v0 : α) (l : List (String × α)) :
    keys ((k0, v0) :: l) = k0 :: keys l := rfl

theorem objGet_eq_none_iff {α : Type} (l : List (String × α)) (k : String) :
    objGet l k = none ↔ k ∉ keys l := by
  induction l with
  | nil => simp [objGet_nil, keys]
  | cons p rest ih =>
    obtain ⟨k0, v0⟩ := p
    rw [objGet_cons, keys_cons]
    cases h : k0 == k
    · have hne : ¬ (k = k0) := fun hc => by simp [hc] at h
      simp [List.mem_cons, ih, hne]
    · have he : k0 = k := by simpa using h
      simp [List.mem_cons, he]

theorem objGet_map_update {α : Type} (l : List (String × α)) (k k' : String) (v : α)
    (hne : (k == k') = false) :
    objGet (l.map (fun p => if p.1 == k then (k, v) else p)) k' = objGet l k' := by
  induction l with
  | nil => rfl
  | cons p rest ih =>
    obtain ⟨k0, v0⟩ := p
    cases h : k0 == k
    · simp only [List.map_cons, h, Bool.false_eq_true, if_false, objGet_cons, ih]
    · have he : k0 = k := by simpa using h
      have h2 : (k0 == k') = false := by
        subst he; exact hne
      simp only [List.map_cons, h, if_true, objGet_cons, ih, h2, hne,
        Bool.false_eq_true, if_false]

theorem objGet_objSet {α : Type} (l : List (String × α)) (k : String) (v : α) (k' : String) :
    objGet (objSet l k v) k' = if k == k' then some v else objGet l k' := by
  cases hk : k == k'
  · -- the probed key differs from the written key
    simp only [hk, Bool.false_eq_true, if_false, objSet]
    by_cases ha : l.any (fun p => p.1 == k)
    · rw [if_pos ha, objGet_map_update l k k' v hk]
    · rw [if_neg ha, objGet_append]
      rw [objGet_cons, objGet_nil]
      have hkk' : (k == k') = false := hk
      cases h : objGet l k' <;> simp [hkk']
  · have he : k = k' := by simpa using hk
    subst he
    simp only [hk, if_true, objSet]
    by_cases ha : l.any (fun p => p.1 == k)
    · -- update path: some property has the key
      rw [if_pos ha]
      induction l with
      | nil => simp at ha
      | cons q rest ih =>
        obtain ⟨k0, v0⟩ := q
        cases h0 : k0 == k
        · have ha' : rest.any (fun p => p.1 == k) := by
            rcases List.any_eq_true.mp ha with ⟨p, hmem, hpk⟩
            rcases List.mem_cons.mp hmem with hq | hq
            · subst hq; simp [h0] at hpk
            · exact List.any_eq_true.mpr ⟨p, hq, hpk⟩
          simp only [List.map_cons, h0, Bool.false_eq_true, if_false, objGet_cons]
          exact ih ha'
        · simp only [List.map_cons, h0, if_true, objGet_cons]
          rw [if_pos (by simp)]
    · rw [if_neg ha, objGet_append]
      have hnone : objGet l k = none := by
        rw [objGet_eq_none_iff]
        intro hmem
        apply ha
        rw [List.any_eq_true]
        rcases List.mem_map.mp hmem with ⟨p, hp, hpk⟩
        exact ⟨p, hp, by simp [hpk]⟩
      rw [hnone]
      simp [objGet_cons]

theorem lastGet_nil {α : Type} (k : String) : lastGet ([] : List (String × α)) k = none := rfl

theorem lastGet_cons {α : Type} (k0 : String) (v0 : α) (l : List (String × α)) (k : String) :
    lastGet ((k0, v0) :: l) k =
      match lastGet l k with
      | some v => some v
      | none => if k0 == k then some v0 else none := by
  unfold lastGet
  rw [List.reverse_cons, objGet_append]
  cases h : objGet l.reverse k <;> simp [objGet_cons, objGet_nil]

theorem objGet_spread {α : Type} (a b : List (String × α)) (k : String) :
    objGet (spread a b) k =
      match lastGet b k with
      | some v => some v
      | none => objGet a k := by
  induction b generalizing a with
  | nil => simp [spread, lastGet_nil]
  | cons p rest ih =>
    obtain ⟨k0, v0⟩ := p
    have hstep : spread a ((k0, v0) :: rest) = spread (objSet a k0 v0) rest := rfl
    rw [hstep, ih, lastGet_cons]
    cases h : lastGet rest k
    · rw [objGet_objSet]
      cases h0 : k0 == k <;> simp
    · rfl

theorem filterUndefined_nil : filterUndefined [] = [] := rfl

theorem filterUndefined_cons (k0 : String) (v0 : Option String) (l : Labels) :
    filterUndefined ((k0, v0) :: l) =
      match v0 with
      | some v => (k0, v) :: filterUndefined l
      | none => filterUndefined l := by
  cases v0 <;> simp [filterUndefined]

theorem keys_filterUndefined_sublist (l : Labels) :
    (keys (filterUndefined l)).Sublist (keys l) := by
  induction l with
  | nil => exact List.Sublist.refl _
  | cons p rest ih =>
    obtain ⟨k0, v0⟩ := p
    rw [filterUndefined_cons, keys_cons]
    cases v0
    · exact ih.cons k0
    · rw [keys_cons]
      exact ih.cons₂ k0

theorem objGet_filterUndefined (l : Labels) (k : String) (h : (keys l).Nodup) :
    objGet (filterUndefined l) k = (objGet l k).join := by
  induction l with
  | nil => simp [filterUndefined_nil, objGet_nil]
  | cons p rest ih =>
    obtain ⟨k0, v0⟩ := p
    rw [keys_cons, List.nodup_cons] at h
    rw [filterUndefined_cons, objGet_cons]
    cases v0
    · cases hk : k0 == k
      · simp only [hk, Bool.false_eq_true, if_false]
        exact ih h.2
      · have he : k0 = k := by simpa using hk
        subst he
        have : objGet (filterUndefined rest) k0 = none := by
          rw [objGet_eq_none_iff]
          intro hc
          exact h.1 ((keys_filterUndefined_sublist rest).mem hc)
        simp [this]
    · rw [objGet_cons]
      cases hk : k0 == k
      · simp only [hk, Bool.false_eq_true, if_false]
        exact ih h.2
      · simp

theorem objGet_toLabels (m : List (String × String)) (k : String) :
    objGet (toLabels m) k = (objGet m k).map some := by
  induction m with
  | nil => simp [toLabels, objGet_nil]
  | cons p rest ih =>
    obtain ⟨k0, v0⟩ := p
    have : toLabels ((k0, v0) :: rest) = (k0, some v0) :: toLabels rest := rfl
    rw [this, objGet_cons, objGet_cons]
    cases hk : k0 == k <;> simp [ih]

theorem keys_toLabels (m : List (String × String)) : keys (toLabels m) = keys m := by
  induction m with
  | nil => rfl
  | cons p rest ih =>
    obtain ⟨k0, v0⟩ := p
    have h1 : toLabels ((k0, v0) :: rest) = (k0, some v0) :: toLabels rest := rfl
    rw [h1, keys_cons, keys_cons, ih]

/-! ## Keys stay duplicate-free -/

theorem keys_map_update {α : Type} (l : List (String × α)) (k : String) (v : α) :
    keys (l.map (fun p => if p.1 == k then (k, v) else p)) = keys l := by
  induction l with
  | nil => rfl
  | cons p rest ih =>
    obtain ⟨k0, v0⟩ := p
    cases h0 : k0 == k
    · simp only [List.map_cons, h0, Bool.false_eq_true, if_false, keys_cons, ih]
    · have he : k0 = k := by simpa using h0
      subst he
      simp only [List.map_cons, beq_self_eq_true, if_true, keys_cons, ih]

theorem keys_objSet_of_any {α : Type} (l : List (String × α)) (k : String) (v : α)
    (h : l.any (fun p => p.1 == k) = true) : keys (objSet l k v) = keys l := by
  unfold objSet
  rw [if_pos h, keys_map_update]

theorem nodupKeys_objSet {α : Type} (l : List (String × α)) (k : String) (v : α)
    (h : (keys l).Nodup) : (keys (objSet l k v)).Nodup := by
  unfold objSet
  by_cases ha : l.any (fun p => p.1 == k)
  · rw [if_pos ha, keys_map_update]
    exact h
  · rw [if_neg ha]
    have hk : k ∉ keys l := by
      intro hmem
      apply ha
      rcases List.mem_map.mp hmem with ⟨p, hp, hpk⟩
      exact List.any_eq_true.mpr ⟨p, hp, by simp [hpk]⟩
    have : keys (l ++ [(k, v)]) = keys l ++ [k] := by
      unfold keys
      rw [List.map_append]
      rfl
    rw [this]
    exact List.Nodup.append h (List.nodup_singleton k)
      (List.disjoint_singleton.mpr hk)

theorem nodupKeys_spread {α : Type} (a b : List (String × α))
    (h : (keys a).Nodup) : (keys (spread a b)).Nodup := by
  induction b generalizing a with
  | nil => exact h
  | cons p rest ih =>
    obtain ⟨k0, v0⟩ := p
    exact ih (objSet a k0 v0) (nodupKeys_objSet a k0 v0 h)

theorem nodupKeys_filterUndefined (l : Labels) (h : (keys l).Nodup) :
    (keys (filterUndefined l)).Nodup :=
  (keys_filterUndefined_sublist l).nodup h

theorem resolveLabels_nodupKeys (t : ScopeTree) (p : List Nat) :
    (keys (resolveLabels t p)).Nodup := by
  induction p with
  | nil => simp [resolveLabels, keys]
  | cons s rest ih =>
    have h1 : (keys (toLabels (resolveLabels t rest))).Nodup := by
      rw [keys_toLabels]; exact ih
    exact nodupKeys_filterUndefined _ (nodupKeys_spread _ _ h1)

/-! ## The pointwise step function of label resolution -/

/-- What one level of label overlay does to the value resolved for one key:
the last write for the key wins when the level mentions it (an unset write
deletes), and the inherited value survives otherwise. -/
def ovApply (L : Labels) (prev : Option String) (k : String) : Option String :=
  match lastGet L k with
  | some (some v) => some v
  | some none => none
  | none => prev

theorem ovApply_idem (L : Labels) (prev : Option String) (k : String) :
    ovApply L (ovApply L prev k) k = ovApply L prev k := by
  unfold ovApply
  cases h : lastGet L k with
  | none => rfl
  | some w => cases w <;> rfl

theorem ovApply_congr (L1 L2 : Labels) (prev : Option String) (k : String)
    (h : lastGet L1 k = lastGet L2 k) : ovApply L1 prev k = ovApply L2 prev k := by
  unfold ovApply
  rw [h]

theorem lookupMetadata_cons (t : ScopeTree) (s : Nat) (rest : List Nat) :
    lookupMetadata t (s :: rest) =
      match t.meta (s :: rest) with
      | some m => some m
      | none => lookupMetadata t rest := rfl

theorem lookupMetadata_cons_some (t : ScopeTree) (s : Nat) (rest : List Nat)
    (r : MetadataRecord) (h : t.meta (s :: rest) = some r) :
    lookupMetadata t (s :: rest) = some r := by
  rw [lookupMetadata_cons, h]

theorem lookupMetadata_cons_none (t : ScopeTree) (s : Nat) (rest : List Nat)
    (h : t.meta (s :: rest) = none) :
    lookupMetadata t (s :: rest) = lookupMetadata t rest := by
  rw [lookupMetadata_cons, h]

/-- The pointwise reading of one step of `resolveLabels`: the value for `k`
is the parent value transformed by the labels of the nearest record. -/
theorem objGet_resolveLabels_cons (t : ScopeTree) (s : Nat) (rest : List Nat)
    (k : String) :
    objGet (resolveLabels t (s :: rest)) k =
      ovApply (((lookupMetadata t (s :: rest)).bind (fun m => m.labels)).getD [])
        (objGet (resolveLabels t rest) k) k := by
  have hstep : resolveLabels t (s :: rest) =
      filterUndefined (spread (toLabels (resolveLabels t rest))
        (((lookupMetadata t (s :: rest)).bind (fun m => m.labels)).getD [])) := rfl
  rw [hstep]
  set L := ((lookupMetadata t (s :: rest)).bind (fun m => m.labels)).getD [] with hL
  have hnodup : (keys (spread (toLabels (resolveLabels t rest)) L)).Nodup := by
    apply nodupKeys_spread
    rw [keys_toLabels]
    exact resolveLabels_nodupKeys t rest
  rw [objGet_filterUndefined _ _ hnodup, objGet_spread]
  unfold ovApply
  cases h : lastGet L k with
  | none => rw [objGet_toLabels]; cases objGet (resolveLabels t rest) k <;> rfl
  | some w => cases w <;> rfl

/-- Spec-side analogue of `objGet_resolveLabels_cons` for the overlay with
delete semantics. -/
theorem objGet_filter_ne (base : List (String × String)) (k0 k : String) :
    objGet (base.filter (fun q => !(q.1 == k0))) k =
      if k0 == k then none else objGet base k := by
  induction base with
  | nil => cases h : k0 == k <;> simp [objGet_nil]
  | cons q rest ih =>
    obtain ⟨kq, vq⟩ := q
    cases hq : kq == k0
    · rw [List.filter_cons_of_pos (by simp [hq])]
      rw [objGet_cons, objGet_cons]
      cases hqk : kq == k
      · simp only [Bool.false_eq_true, if_false, ih]
      · have : kq = k := by simpa using hqk
        subst this
        have : (k0 == kq) = false := by
          cases h0 : k0 == kq
          · rfl
          · have : k0 = kq := by simpa using h0
            subst this
            simp at hq
        simp [this]
    · have : kq = k0 := by simpa using hq
      subst this
      rw [List.filter_cons_of_neg (by simp)]
      rw [ih, objGet_cons]
      cases hk : kq == k
      · rfl
      · have : kq = k := by simpa using hk
        subst this
        simp

theorem objGet_overlayDel (base : List (String × String)) (ov : Labels) (k : String) :
    objGet (overlayDel base ov) k = ovApply ov (objGet base k) k := by
  induction ov generalizing base with
  | nil => simp [overlayDel, ovApply, lastGet_nil]
  | cons p rest ih =>
    obtain ⟨k0, w0⟩ := p
    have hstep : overlayDel base ((k0, w0) :: rest) =
        overlayDel (match w0 with
          | none => base.filter (fun q => !(q.1 == k0))
          | some v => objSet base k0 v) rest := by
      cases w0 <;> rfl
    rw [hstep, ih]
    unfold ovApply
    rw [lastGet_cons]
    cases h : lastGet rest k with
    | some w => cases w <;> rfl
    | none =>
      cases w0 with
      | none =>
        rw [objGet_filter_ne]
        cases h0 : k0 == k <;> simp
      | some v =>
        rw [objGet_objSet]
        cases h0 : k0 == k <;> simp

/-- Overlaying the labels of the record `lookupMetadata` finds changes nothing
about an already resolved mapping: the record has already been applied. -/
theorem objGet_resolveLabels_absorb (t : ScopeTree) (p : List Nat) (k : String) :
    ovApply (((lookupMetadata t p).bind (fun m => m.labels)).getD [])
        (objGet (resolveLabels t p) k) k
      = objGet (resolveLabels t p) k := by
  induction p with
  | nil => simp [lookupMetadata, ovApply, lastGet_nil]
  | cons s rest ih =>
    cases h : t.meta (s :: rest) with
    | some r =>
      rw [lookupMetadata_cons_some t s rest r h, objGet_resolveLabels_cons,
        lookupMetadata_cons_some t s rest r h]
      exact ovApply_idem _ _ _
    | none =>
      rw [lookupMetadata_cons_none t s rest h, objGet_resolveLabels_cons,
        lookupMetadata_cons_none t s rest h]
      exact ovApply_idem _ _ _

/-- Pointwise equivalence of the source `resolveLabels` (which overlays the
nearest ancestor-or-self record) with the variant overlaying only the record
attached directly to the scope. -/
theorem directResolveLabels_nodupKeys (t : ScopeTree) (p : List Nat) :
    (keys (directResolveLabels t p)).Nodup := by
  induction p with
  | nil => simp [directResolveLabels, keys]
  | cons s rest ih =>
    have h1 : (keys (toLabels (directResolveLabels t rest))).Nodup := by
      rw [keys_toLabels]; exact ih
    exact nodupKeys_filterUndefined _ (nodupKeys_spread _ _ h1)

theorem ovApply_nil (prev : Option String) (k : String) :
    ovApply [] prev k = prev := rfl

/-- Pointwise reading of one step of `directResolveLabels`. -/
theorem objGet_directResolveLabels_cons (t : ScopeTree) (s : Nat) (rest : List Nat)
    (k : String) :
    objGet (directResolveLabels t (s :: rest)) k =
      ovApply (((t.meta (s :: rest)).bind (fun m => m.labels)).getD [])
        (objGet (directResolveLabels t rest) k) k := by
  have hstep : directResolveLabels t (s :: rest) =
      filterUndefined (spread (toLabels (directResolveLabels t rest))
        (((t.meta (s :: rest)).bind (fun m => m.labels)).getD [])) := rfl
  rw [hstep]
  have hnodup : (keys (spread (toLabels (directResolveLabels t rest))
      (((t.meta (s :: rest)).bind (fun m => m.labels)).getD []))).Nodup := by
    apply nodupKeys_spread
    rw [keys_toLabels]
    exact directResolveLabels_nodupKeys t rest
  rw [objGet_filterUndefined _ _ hnodup, objGet_spread]
  unfold ovApply
  cases h : lastGet (((t.meta (s :: rest)).bind (fun m => m.labels)).getD []) k with
  | none =>
    rw [objGet_toLabels]
    cases objGet (directResolveLabels t rest) k <;> rfl
  | some w => cases w <;> rfl

/-- Pointwise equivalence of the source `resolveLabels` (which overlays the
nearest ancestor-or-self record) with the variant overlaying only the record
attached directly to the scope. -/
theorem objGet_resolveLabels_eq_direct (t : ScopeTree) (p : List Nat) (k : String) :
    objGet (resolveLabels t p) k = objGet (directResolveLabels t p) k := by
  induction p with
  | nil => rfl
  | cons s rest ih =>
    cases h : t.meta (s :: rest) with
    | some r =>
      rw [objGet_resolveLabels_cons, lookupMetadata_cons_some t s rest r h,
        objGet_directResolveLabels_cons, h, ih]
    | none =>
      rw [objGet_resolveLabels_cons, lookupMetadata_cons_none t s rest h,
        objGet_resolveLabels_absorb, ih, objGet_directResolveLabels_cons, h]
      simp [ovApply, lastGet_nil]

/-- Pointwise equivalence of the direct variant with the spec-worded overlay
(replace on defined values, delete on unset values). -/
theorem objGet_direct_eq_spec (t : ScopeTree) (p : List Nat) (k : String) :
    objGet (directResolveLabels t p) k = objGet (specResolveLabels t p) k := by
  induction p with
  | nil => rfl
  | cons s rest ih =>
    have hspec : specResolveLabels t (s :: rest) =
        overlayDel (specResolveLabels t rest)
          (((t.meta (s :: rest)).bind (fun m => m.labels)).getD []) := rfl
    rw [objGet_directResolveLabels_cons, hspec, objGet_overlayDel, ih]

/-- When no ancestor-or-self record exists, label resolution yields the empty
mapping. -/
theorem resolveLabels_eq_nil_of_lookup_none (t : ScopeTree) (p : List Nat)
    (h : lookupMetadata t p = none) : resolveLabels t p = [] := by
  induction p with
  | nil => rfl
  | cons s rest ih =>
    have hmeta : t.meta (s :: rest) = none := by
      cases hm : t.meta (s :: rest) with
      | none => rfl
      | some r => rw [lookupMetadata_cons_some t s rest r hm] at h; cases h
    have hrest : lookupMetadata t rest = none := by
      rw [lookupMetadata_cons_none t s rest hmeta] at h
      exact h
    have hstep : resolveLabels t (s :: rest) =
        filterUndefined (spread (toLabels (resolveLabels t rest))
          (((lookupMetadata t (s :: rest)).bind (fun m => m.labels)).getD [])) := rfl
    rw [hstep, lookupMetadata_cons_none t s rest hmeta, hrest, ih hrest]
    rfl

/-! ## Namespace resolution lemmas -/

theorem nsGuard_ne_empty (x : Option String) : nsGuard x ≠ some "" := by
  unfold nsGuard
  by_cases h : x = some "" <;> simp [h]

theorem nsGuard_of_ne (x : Option String) (h : x ≠ some "") : nsGuard x = x := by
  unfold nsGuard
  rw [if_neg h]

theorem specResolveNamespace_ne_empty (t : ScopeTree) (p : List Nat) :
    specResolveNamespace t p ≠ some "" := by
  unfold specResolveNamespace
  cases h : nearestDecision t p with
  | none => simp
  | some v =>
    by_cases hv : v = "" <;> simp [hv]

theorem nearestDecision_cons (t : ScopeTree) (s : Nat) (rest : List Nat) :
    nearestDecision t (s :: rest) =
      match (t.meta (s :: rest)).bind (fun m => m.nspace) with
      | some v => some v
      | none => nearestDecision t rest := rfl

theorem nearestDecision_of_lookup (t : ScopeTree) (p : List Nat)
    (r : MetadataRecord) (v : String)
    (hl : lookupMetadata t p = some r) (hn : r.nspace = some v) :
    nearestDecision t p = some v := by
  induction p with
  | nil => cases hl
  | cons s rest ih =>
    cases hm : t.meta (s :: rest) with
    | some r0 =>
      rw [lookupMetadata_cons_some t s rest r0 hm] at hl
      injection hl with hr
      subst hr
      rw [nearestDecision_cons, hm]
      simp [hn]
    | none =>
      rw [lookupMetadata_cons_none t s rest hm] at hl
      rw [nearestDecision_cons, hm]
      simp [ih hl]

theorem resolveNamespace_cons (t : ScopeTree) (s : Nat) (rest : List Nat) :
    resolveNamespace t (s :: rest) =
      nsGuard (match (lookupMetadata t (s :: rest)).bind (fun m => m.nspace) with
        | some v => some v
        | none => resolveNamespace t rest) := rfl

/-- The source walk agrees with the nearest-decision description of the spec:
this is the content shared by the namespace claims. -/
theorem resolveNamespace_eq_specNs (t : ScopeTree) (p : List Nat) :
    resolveNamespace t p = specResolveNamespace t p := by
  induction p with
  | nil => rfl
  | cons s rest ih =>
    rw [resolveNamespace_cons]
    cases hm : t.meta (s :: rest) with
    | some r =>
      rw [lookupMetadata_cons_some t s rest r hm]
      cases hn : r.nspace with
      | some v =>
        have h1 : specResolveNamespace t (s :: rest) = if v = "" then none else some v := by
          unfold specResolveNamespace
          rw [nearestDecision_cons, hm]
          simp [hn]
        rw [h1, Option.some_bind, hn]
        simp [nsGuard]
      | none =>
        have h1 : specResolveNamespace t (s :: rest) = specResolveNamespace t rest := by
          unfold specResolveNamespace
          rw [nearestDecision_cons, hm]
          simp [hn]
        rw [h1]
        simp only [Option.some_bind, hn]
        rw [ih, nsGuard_of_ne _ (specResolveNamespace_ne_empty t rest)]
    | none =>
      rw [lookupMetadata_cons_none t s rest hm]
      have hnd : nearestDecision t (s :: rest) = nearestDecision t rest := by
        rw [nearestDecision_cons, hm]
        rfl
      cases hl : lookupMetadata t rest with
      | some r =>
        cases hn : r.nspace with
        | some v =>
          have h1 : specResolveNamespace t (s :: rest) =
              if v = "" then none else some v := by
            unfold specResolveNamespace
            rw [hnd, nearestDecision_of_lookup t rest r v hl hn]
          rw [h1]
          simp [hn, nsGuard]
        | none =>
          simp only [hl, Option.some_bind, hn]
          rw [ih, nsGuard_of_ne _ (specResolveNamespace_ne_empty t rest)]
          unfold specResolveNamespace
          rw [hnd]
      | none =>
        simp only [hl, Option.none_bind]
        rw [ih, nsGuard_of_ne _ (specResolveNamespace_ne_empty t rest)]
        unfold specResolveNamespace
        rw [hnd]

/-! ## Order lemmas for the key sort -/

theorem charListLt_asymm : ∀ as bs : List Char,
    charListLt as bs = true → charListLt bs as = false := by
  intro as
  induction as with
  | nil =>
    intro bs h
    cases bs with
    | nil => simp [charListLt] at h
    | cons b bs => rfl
  | cons a as ih =>
    intro bs h
    cases bs with
    | nil => simp [charListLt] at h
    | cons b bs =>
      simp only [charListLt, Bool.or_eq_true, Bool.and_eq_true] at h
      simp only [charListLt, Bool.or_eq_false_iff, Bool.and_eq_false_iff]
      rcases h with hlt | ⟨heq, hrec⟩
      · constructor
        · exact decide_eq_false (lt_asymm (of_decide_eq_true hlt))
        · left
          have hne : b ≠ a := ne_of_gt (of_decide_eq_true hlt)
          simpa using hne
      · have he : a = b := by simpa using heq
        subst he
        constructor
        · exact decide_eq_false (lt_irrefl a)
        · right
          exact ih bs hrec

theorem charListLt_trans : ∀ as bs cs : List Char,
    charListLt as bs = true → charListLt bs cs = true → charListLt as cs = true := by
  intro as
  induction as with
  | nil =>
    intro bs cs h1 h2
    cases bs with
    | nil => simp [charListLt] at h1
    | cons b bs =>
      cases cs with
      | nil => simp [charListLt] at h2
      | cons c cs => rfl
  | cons a as ih =>
    intro bs cs h1 h2
    cases bs with
    | nil => simp [charListLt] at h1
    | cons b bs =>
      cases cs with
      | nil => simp [charListLt] at h2
      | cons c cs =>
        simp only [charListLt, Bool.or_eq_true, Bool.and_eq_true] at h1 h2 ⊢
        rcases h1 with hab | ⟨hab, hrec1⟩
        · rcases h2 with hbc | ⟨hbc, hrec2⟩
          · exact Or.inl (decide_eq_true (lt_trans (of_decide_eq_true hab) (of_decide_eq_true hbc)))
          · have : b = c := by simpa using hbc
            subst this
            exact Or.inl hab
        · have : a = b := by simpa using hab
          subst this
          rcases h2 with hbc | ⟨hbc, hrec2⟩
          · exact Or.inl hbc
          · have : a = c := by simpa using hbc
            subst this
            exact Or.inr ⟨by simp, ih bs cs hrec1 hrec2⟩

/-- The (non-strict) key order in which `sortByKey` leaves the record. -/
def keyOrdered (p q : String × Option String) : Prop :=
  charListLt q.1.data p.1.data = false

theorem keyOrdered_of_lt (p q : String × Option String)
    (h : keyLt p.1 q.1 = true) : keyOrdered p q :=
  charListLt_asymm _ _ h

theorem keyOrdered_of_not_lt (p q : String × Option String)
    (h : keyLt p.1 q.1 = false) : keyOrdered q p := by
  unfold keyLt at h
  exact h

theorem mem_insertPair (p x : String × Option String) (l : Labels) :
    x ∈ insertPair p l ↔ x = p ∨ x ∈ l := by
  induction l with
  | nil => simp [insertPair]
  | cons q rest ih =>
    unfold insertPair
    by_cases h : keyLt p.1 q.1
    · rw [if_pos h]
      simp [List.mem_cons]
    · rw [if_neg h]
      rw [List.mem_cons, ih, List.mem_cons]
      tauto

theorem insertPair_pairwise (p : String × Option String) (l : Labels)
    (h : l.Pairwise keyOrdered) : (insertPair p l).Pairwise keyOrdered := by
  induction l with
  | nil => simp [insertPair, List.pairwise_cons]
  | cons q rest ih =>
    rw [List.pairwise_cons] at h
    unfold insertPair
    by_cases hlt : keyLt p.1 q.1
    · rw [if_pos hlt]
      rw [List.pairwise_cons]
      constructor
      · intro x hx
        rcases List.mem_cons.mp hx with hq | hr
        · subst hq
          exact keyOrdered_of_lt p x hlt
        · -- p is below q which is below x
          have hqx : keyOrdered q x := h.1 x hr
          unfold keyOrdered
          cases hc : charListLt x.1.data p.1.data
          · rfl
          · have : charListLt x.1.data q.1.data = true :=
              charListLt_trans _ _ _ hc hlt
            unfold keyOrdered at hqx
            rw [this] at hqx
            cases hqx
      · rw [List.pairwise_cons]
        exact h
    · rw [if_neg hlt]
      rw [List.pairwise_cons]
      constructor
      · intro x hx
        rcases (mem_insertPair p x rest).mp hx with hp | hr
        · subst hp
          exact keyOrdered_of_not_lt x q (by simpa using hlt)
        · exact h.1 x hr
      · exact ih h.2

theorem sortByKey_pairwise (l : Labels) : (sortByKey l).Pairwise keyOrdered := by
  induction l with
  | nil => simp [sortByKey]
  | cons p rest ih =>
    have : sortByKey (p :: rest) = insertPair p (sortByKey rest) := rfl
    rw [this]
    exact insertPair_pairwise p _ ih

theorem insertPair_perm (p : String × Option String) (l : Labels) :
    (insertPair p l).Perm (p :: l) := by
  induction l with
  | nil => exact List.Perm.refl _
  | cons q rest ih =>
    unfold insertPair
    by_cases h : keyLt p.1 q.1
    · rw [if_pos h]
    · rw [if_neg h]
      exact List.Perm.trans (ih.cons q) (List.Perm.swap p q rest)

theorem sortByKey_perm (l : Labels) : (sortByKey l).Perm l := by
  induction l with
  | nil => exact List.Perm.refl _
  | cons p rest ih =>
    have h1 : sortByKey (p :: rest) = insertPair p (sortByKey rest) := rfl
    rw [h1]
    exact (insertPair_perm p (sortByKey rest)).trans (ih.cons p)

/-! ## Lookups are invariant under key-respecting permutation -/

theorem objGet_eq_some_iff_mem {α : Type} (l : List (String × α)) (k : String)
    (v : α) (h : (keys l).Nodup) : objGet l k = some v ↔ (k, v) ∈ l := by
  induction l with
  | nil => simp [objGet_nil]
  | cons p rest ih =>
    obtain ⟨k0, v0⟩ := p
    rw [keys_cons, List.nodup_cons] at h
    rw [objGet_cons, List.mem_cons]
    cases hk : k0 == k
    · have hne : ¬ ((k, v) = (k0, v0)) := by
        intro hc
        injection hc with h1 h2
        subst h1
        simp at hk
      simp only [Bool.false_eq_true, if_false, ih h.2]
      tauto
    · have he : k0 = k := by simpa using hk
      subst he
      constructor
      · intro hv
        injection hv with hv
        subst hv
        exact Or.inl rfl
      · intro hv
        rcases hv with hv | hv
        · injection hv with h1 h2
          subst h2
          rfl
        · exfalso
          apply h.1
          exact List.mem_map.mpr ⟨(k0, v), hv, rfl⟩

theorem objGet_perm {α : Type} (l1 l2 : List (String × α)) (k : String)
    (hp : l1.Perm l2) (h : (keys l1).Nodup) : objGet l1 k = objGet l2 k := by
  have h2 : (keys l2).Nodup := by
    unfold keys at *
    exact (hp.map Prod.fst).nodup_iff.mp h
  cases hg : objGet l1 k with
  | none =>
    rw [objGet_eq_none_iff] at hg
    symm
    rw [objGet_eq_none_iff]
    intro hc
    apply hg
    unfold keys at *
    exact (hp.map Prod.fst).mem_iff.mpr hc
  | some v =>
    rw [objGet_eq_some_iff_mem l1 k v h] at hg
    symm
    rw [objGet_eq_some_iff_mem l2 k v h2]
    exact hp.mem_iff.mp hg

theorem keys_reverse {α : Type} (l : List (String × α)) :
    keys l.reverse = (keys l).reverse := by
  unfold keys
  rw [List.map_reverse]

theorem lastGet_perm (l1 l2 : Labels) (k : String)
    (hp : l1.Perm l2) (h : (keys l1).Nodup) : lastGet l1 k = lastGet l2 k := by
  unfold lastGet
  apply objGet_perm
  · exact (l1.reverse_perm.trans hp).trans l2.reverse_perm.symm
  · rw [keys_reverse]
    exact List.nodup_reverse.mpr h

theorem lastGet_sortByKey (l : Labels) (k : String) (h : (keys l).Nodup) :
    lastGet (sortByKey l) k = lastGet l k :=
  lastGet_perm _ _ _ (sortByKey_perm l) (by
    unfold keys at *
    exact ((sortByKey_perm l).map Prod.fst).nodup_iff.mpr h)

theorem objGet_sortByKey (l : Labels) (k : String) (h : (keys l).Nodup) :
    objGet (sortByKey l) k = objGet l k :=
  objGet_perm _ _ _ (sortByKey_perm l) (by
    unfold keys at *
    exact ((sortByKey_perm l).map Prod.fst).nodup_iff.mpr h)

/-! ## Resolution depends on records only through per-key lookups -/

/-- Two optional records agree at key `k` when both are absent or both
present with the same effective (last-write) value for `k`. -/
def recAt (k : String) : Option MetadataRecord → Option MetadataRecord → Prop
  | none, none => True
  | some r1, some r2 =>
      lastGet (r1.labels.getD []) k = lastGet (r2.labels.getD []) k
  | _, _ => False

theorem lookup_recAt (k : String) (t1 t2 : ScopeTree)
    (h : ∀ q, recAt k (t1.meta q) (t2.meta q)) (p : List Nat) :
    recAt k (lookupMetadata t1 p) (lookupMetadata t2 p) := by
  induction p with
  | nil => trivial
  | cons s rest ih =>
    have hs := h (s :: rest)
    cases h1 : t1.meta (s :: rest) with
    | some r1 =>
      cases h2 : t2.meta (s :: rest) with
      | some r2 =>
        rw [lookupMetadata_cons_some t1 s rest r1 h1,
          lookupMetadata_cons_some t2 s rest r2 h2]
        rw [h1, h2] at hs
        exact hs
      | none => rw [h1, h2] at hs; cases hs
    | none =>
      cases h2 : t2.meta (s :: rest) with
      | some r2 => rw [h1, h2] at hs; cases hs
      | none =>
        rw [lookupMetadata_cons_none t1 s rest h1,
          lookupMetadata_cons_none t2 s rest h2]
        exact ih

/-- Congruence: resolution at key `k` only sees the per-key content of the
records along the chain, never their stored order. -/
theorem objGet_resolveLabels_congr (k : String) (t1 t2 : ScopeTree)
    (h : ∀ q, recAt k (t1.meta q) (t2.meta q)) (p : List Nat) :
    objGet (resolveLabels t1 p) k = objGet (resolveLabels t2 p) k := by
  induction p with
  | nil => rfl
  | cons s rest ih =>
    rw [objGet_resolveLabels_cons, objGet_resolveLabels_cons, ih]
    apply ovApply_congr
    have hl := lookup_recAt k t1 t2 h (s :: rest)
    cases h1 : lookupMetadata t1 (s :: rest) with
    | some r1 =>
      cases h2 : lookupMetadata t2 (s :: rest) with
      | some r2 =>
        rw [h1, h2] at hl
        simpa using hl
      | none => rw [h1, h2] at hl; cases hl
    | none =>
      cases h2 : lookupMetadata t2 (s :: rest) with
      | some r2 => rw [h1, h2] at hl; cases hl
      | none => rfl

/-! ## The threaded read operations never change the tree -/

theorem lookupMetadataSt_snd (t : ScopeTree) (p : List Nat) :
    (lookupMetadataSt t p).2 = t := by
  induction p generalizing t with
  | nil => rfl
  | cons s rest ih =>
    unfold lookupMetadataSt tryGetMetadataSt
    cases h : t.meta (s :: rest) with
    | some r => rfl
    | none => exact ih t

theorem lookupMetadataSt_fst (t : ScopeTree) (p : List Nat) :
    (lookupMetadataSt t p).1 = lookupMetadata t p := by
  induction p generalizing t with
  | nil => rfl
  | cons s rest ih =>
    unfold lookupMetadataSt tryGetMetadataSt
    rw [lookupMetadata_cons]
    cases h : t.meta (s :: rest) with
    | some r => rfl
    | none => exact ih t

theorem resolveNamespaceSt_snd (t : ScopeTree) (p : List Nat) :
    (resolveNamespaceSt t p).2 = t := by
  induction p generalizing t with
  | nil => rfl
  | cons s rest ih =>
    unfold resolveNamespaceSt
    cases h : (lookupMetadataSt t (s :: rest)).1.bind (fun m => m.nspace) with
    | some v =>
      simp only [h]
      exact lookupMetadataSt_snd t (s :: rest)
    | none =>
      simp only [h]
      rw [ih ((lookupMetadataSt t (s :: rest)).2), lookupMetadataSt_snd]

theorem resolveNamespaceSt_fst (t : ScopeTree) (p : List Nat) :
    (resolveNamespaceSt t p).1 = resolveNamespace t p := by
  induction p generalizing t with
  | nil => rfl
  | cons s rest ih =>
    unfold resolveNamespaceSt
    rw [resolveNamespace_cons]
    cases h : (lookupMetadataSt t (s :: rest)).1.bind (fun m => m.nspace) with
    | some v =>
      rw [lookupMetadataSt_fst] at h
      simp only [lookupMetadataSt_fst, h]
    | none =>
      rw [lookupMetadataSt_fst] at h
      simp only [lookupMetadataSt_fst, h, lookupMetadataSt_snd]
      rw [ih t]

theorem resolveLabelsSt_snd (t : ScopeTree) (p : List Nat) :
    (resolveLabelsSt t p).2 = t := by
  induction p generalizing t with
  | nil => rfl
  | cons s rest ih =>
    unfold resolveLabelsSt
    simp only [lookupMetadataSt_snd, ih t]

theorem resolveLabelsSt_fst (t : ScopeTree) (p : List Nat) :
    (resolveLabelsSt t p).1 = resolveLabels t p := by
  induction p generalizing t with
  | nil => rfl
  | cons s rest ih =>
    unfold resolveLabelsSt
    have hstep : resolveLabels t (s :: rest) =
        filterUndefined (spread (toLabels (resolveLabels t rest))
          (((lookupMetadata t (s :: rest)).bind (fun m => m.labels)).getD [])) := rfl
    simp only [hstep, ih t, resolveLabelsSt_snd, lookupMetadataSt_fst]

theorem recAt_refl (k : String) (o : Option MetadataRecord) : recAt k o o := by
  cases o with
  | none => trivial
  | some r => rfl

theorem lastGet_eq_objGet {α : Type} (l : List (String × α)) (k : String)
    (h : (keys l).Nodup) : lastGet l k = objGet l k := by
  unfold lastGet
  apply objGet_perm
  · exact l.reverse_perm
  · rw [keys_reverse]
    exact List.nodup_reverse.mpr h

theorem lastGet_singleton (k : String) (w : Option String) :
    lastGet [(k, w)] k = some w := by
  rw [lastGet_cons, lastGet_nil]
  simp

theorem applyOps_pairwise (ops : List Labels) (r : MetadataRecord)
    (h : (r.labels.getD []).Pairwise keyOrdered) :
    ((applyOps r ops).labels.getD []).Pairwise keyOrdered := by
  induction ops generalizing r with
  | nil => exact h
  | cons ls rest ih =>
    have hstep : applyOps r (ls :: rest) = applyOps (addLabels r ls) rest := rfl
    rw [hstep]
    apply ih
    exact sortByKey_pairwise _

/-! ## The claims -/

/-- Claim C1: for every scope in the finite acyclic tree, `resolveNamespace`
walks from the scope toward the root and returns the value decided by the
first ancestor-or-self whose attached record carries a non-unset namespace
override — absent when that nearest decision is the tombstone (so a tombstone
never falls through to a grandparent value), the stored non-empty string
otherwise, and absent when no ancestor-or-self carries a non-unset
override.  Stated as equality with the walk written from the words of the
specification. -/
theorem resolveNamespace_matches_nearest_decision (t : ScopeTree) (p : List Nat) :
    resolveNamespace t p = specResolveNamespace t p :=
  resolveNamespace_eq_specNs t p

/-- Claim C2: for every scope, `resolveLabels` computes, as a mapping, the
recursively resolved mapping of the parent overlaid with the label overrides
of the record attached to the scope, where a defined value replaces the
inherited entry and an unset override deletes the key; the result carries
only concrete string values by construction of `filterUndefined`, and a scope
with no metadata anywhere in its ancestry resolves to the empty mapping. -/
theorem resolveLabels_matches_spec_overlay (t : ScopeTree) (p : List Nat) :
    (∀ k, objGet (resolveLabels t p) k = objGet (specResolveLabels t p) k)
    ∧ (lookupMetadata t p = none → resolveLabels t p = []) := by
  constructor
  · intro k
    rw [objGet_resolveLabels_eq_direct, objGet_direct_eq_spec]
  · exact resolveLabels_eq_nil_of_lookup_none t p

theorem resolveLabels_matches_spec_overlay_witness :
    objGet (resolveLabels emptyTree [0]) "app" = objGet (specResolveLabels emptyTree [0]) "app"
    ∧ resolveLabels emptyTree [0] = [] :=
  ⟨(resolveLabels_matches_spec_overlay emptyTree [0]).1 "app",
   (resolveLabels_matches_spec_overlay emptyTree [0]).2 rfl⟩

/-- Claim C9: resolving labels through `lookupMetadata` (spreading the labels
of the nearest ancestor-or-self record at every level) returns the same
mapping as the variant that spreads only the record attached directly to each
scope: the two formulations are observationally equivalent. -/
theorem resolveLabels_lookup_eq_direct (t : ScopeTree) (p : List Nat) (k : String) :
    objGet (resolveLabels t p) k = objGet (directResolveLabels t p) k :=
  objGet_resolveLabels_eq_direct t p k

/-- Claim C10: `resolveNamespace` never returns the empty string: the result
is absent or a non-empty string, although the tombstone is stored internally
as the empty string. -/
theorem resolveNamespace_never_empty_string (t : ScopeTree) (p : List Nat) :
    resolveNamespace t p = none ∨ ∃ v, resolveNamespace t p = some v ∧ v ≠ "" := by
  cases h : resolveNamespace t p with
  | none => exact Or.inl rfl
  | some v =>
    refine Or.inr ⟨v, rfl, ?_⟩
    intro hv
    subst hv
    rw [resolveNamespace_eq_specNs] at h
    exact specResolveNamespace_ne_empty t p h

/-- Claim C6: storing the empty string, storing unset, and `removeNamespace`
all leave the record in the same tombstone state, so they are pairwise
indistinguishable to every later resolution, and after any of them the
namespace of the scope resolves to absent regardless of ancestor values. -/
theorem namespace_tombstone_normalization (r : MetadataRecord) (t : ScopeTree)
    (s : Nat) (rest : List Nat) :
    addNamespace r (some "") = addNamespace r none
    ∧ removeNamespace r = addNamespace r none
    ∧ resolveNamespace (withRecord t (s :: rest) (addNamespace r (some "")))
        (s :: rest) = none := by
  refine ⟨rfl, rfl, ?_⟩
  rw [resolveNamespace_cons]
  have hmeta : (withRecord t (s :: rest) (addNamespace r (some ""))).meta (s :: rest)
      = some (addNamespace r (some "")) := by
    unfold withRecord
    simp
  rw [lookupMetadata_cons_some _ s rest _ hmeta]
  simp [addNamespace, nsGuard]

/-- Claim C5: `Metadata.of` is idempotent and per-scope unique: it returns
the scope itself as the handle (so distinct scopes always get distinct
handles and distinct stored records), a repeated call returns the same tree
and handle, the child count of the scope grows by at most one, and no other
scope is touched. -/
theorem metadata_of_idempotent_and_unique (t : ScopeTree) (s s' : List Nat) :
    (Metadata.of t s).2 = s
    ∧ Metadata.of (Metadata.of t s).1 s = Metadata.of t s
    ∧ ((Metadata.of t s).1.children s).length ≤ (t.children s).length + 1
    ∧ (s' ≠ s → (Metadata.of t s).1.meta s' = t.meta s'
        ∧ (Metadata.of t s).1.children s' = t.children s') := by
  cases h : t.meta s with
  | some r =>
    have h1 : Metadata.of t s = (t, s) := by
      unfold Metadata.of tryGetMetadata
      rw [h]
    rw [h1]
    exact ⟨rfl, h1, Nat.le_succ _, fun _ => ⟨rfl, rfl⟩⟩
  | none =>
    have h1 : Metadata.of t s =
        ({ children := fun p => if p = s then t.children p ++ [metadataId] else t.children p,
           meta := fun p => if p = s then some emptyRecord else t.meta p }, s) := by
      unfold Metadata.of tryGetMetadata
      rw [h]
    rw [h1]
    refine ⟨rfl, ?_, ?_, ?_⟩
    · unfold Metadata.of tryGetMetadata
      simp
    · simp
    · intro hne
      constructor <;> simp [hne]

theorem metadata_of_idempotent_and_unique_witness :
    (Metadata.of emptyTree [0]).2 = [0]
    ∧ Metadata.of (Metadata.of emptyTree [0]).1 [0] = Metadata.of emptyTree [0]
    ∧ ((Metadata.of emptyTree [0]).1.children [0]).length ≤ (emptyTree.children [0]).length + 1
    ∧ ((Metadata.of emptyTree [0]).1.meta [1] = emptyTree.meta [1]
        ∧ (Metadata.of emptyTree [0]).1.children [1] = emptyTree.children [1]) :=
  ⟨(metadata_of_idempotent_and_unique emptyTree [0] [1]).1,
   (metadata_of_idempotent_and_unique emptyTree [0] [1]).2.1,
   (metadata_of_idempotent_and_unique emptyTree [0] [1]).2.2.1,
   (metadata_of_idempotent_and_unique emptyTree [0] [1]).2.2.2 (by decide)⟩

/-- Claim C7: the two resolve queries are pure reads.  In the state-threaded
translation they return the tree unchanged — no record is created, the meta
table and the child count of every scope are the same before and after — and
they compute exactly the pure resolution results. -/
theorem resolve_reads_are_pure (t : ScopeTree) (p : List Nat) :
    (resolveNamespaceSt t p).2 = t
    ∧ (resolveLabelsSt t p).2 = t
    ∧ (resolveNamespaceSt t p).1 = resolveNamespace t p
    ∧ (resolveLabelsSt t p).1 = resolveLabels t p
    ∧ (∀ q, ((resolveNamespaceSt t p).2.children q).length = ((t.children q).length)
        ∧ (resolveLabelsSt t p).2.meta q = t.meta q) := by
  refine ⟨resolveNamespaceSt_snd t p, resolveLabelsSt_snd t p,
    resolveNamespaceSt_fst t p, resolveLabelsSt_fst t p, fun q => ⟨?_, ?_⟩⟩
  · rw [resolveNamespaceSt_snd]
  · rw [resolveLabelsSt_snd]

/-- Claim C3 counterexample: `addLabels` with an unset value does NOT remove
the key from the stored overrides — the key stays present, carrying the unset
sentinel.  Starting from a record whose overrides hold only the key `a`,
passing the unset marker for `a` leaves the stored overrides with the key `a`
still present (value: the sentinel) instead of empty. -/
theorem addLabels_unset_stores_sentinel_cex :
    (addLabels ⟨some [("a", some "v")], none⟩ [("a", none)]).labels = some [("a", none)]
    ∧ "a" ∈ keys ((addLabels ⟨some [("a", some "v")], none⟩ [("a", none)]).labels.getD []) := by
  decide

/-- Claim C3 as amended: `addLabels` sets every input key to its given value
— storing the unset sentinel rather than removing the key when the value is
unset — and keys not present in the input keep their previous values (a
merge, not a replacement). -/
theorem addLabels_merge_pointwise (r : MetadataRecord) (ls : Labels) (k : String)
    (h : (keys (r.labels.getD [])).Nodup) :
    objGet ((addLabels r ls).labels.getD []) k =
      match lastGet ls k with
      | some w => some w
      | none => objGet (r.labels.getD []) k := by
  have hstep : (addLabels r ls).labels.getD [] =
      sortByKey (spread (r.labels.getD []) ls) := rfl
  rw [hstep, objGet_sortByKey _ _ (nodupKeys_spread _ _ h), objGet_spread]
  cases lastGet ls k <;> rfl

theorem addLabels_merge_pointwise_witness :
    (keys ((⟨some [("a", some "1")], none⟩ : MetadataRecord).labels.getD [])).Nodup
    ∧ objGet ((addLabels ⟨some [("a", some "1")], none⟩ [("b", some "2")]).labels.getD []) "b" =
        match lastGet [("b", some "2")] "b" with
        | some w => some w
        | none => objGet ((⟨some [("a", some "1")], none⟩ : MetadataRecord).labels.getD []) "b" :=
  ⟨by decide,
   addLabels_merge_pointwise ⟨some [("a", some "1")], none⟩ [("b", some "2")] "b" (by decide)⟩

/-- A two-scope tree for the C4 counterexample: the parent `[0]` defines the
label `k`, the child `[1, 0]` has an attached record that never set `k`. -/
def cexParentTree : ScopeTree :=
  withRecord (withRecord emptyTree [0] ⟨some [("k", some "v")], none⟩)
    [1, 0] ⟨some [], none⟩

/-- Claim C4 counterexample: passing the unset marker for a key that was
never set is observably NOT a no-op.  In `cexParentTree` the child resolves
`k` to the inherited value; after `addLabels` with the unset marker for the
never-set key `k` on the child record, the child resolves to the empty
mapping (the inherited entry is now blocked), and the record state itself
changed. -/
theorem addLabels_unset_not_noop_cex :
    resolveLabels cexParentTree [1, 0] = [("k", "v")]
    ∧ resolveLabels
        (withRecord cexParentTree [1, 0] (addLabels ⟨some [], none⟩ [("k", none)]))
        [1, 0] = []
    ∧ addLabels (⟨some [], none⟩ : MetadataRecord) [("k", none)]
        ≠ (⟨some [], none⟩ : MetadataRecord) := by
  decide

/-- Claim C4 as amended: for a key never set in the record, `addLabels` with
the unset marker stores the sentinel for that key (the record changes); the
resolved labels are unchanged at every other key, and the scope itself then
resolves the key to absent, blocking any inherited value. -/
theorem addLabels_unset_observable_effect (t : ScopeTree) (q : List Nat)
    (r : MetadataRecord) (k : String)
    (hnodup : (keys (r.labels.getD [])).Nodup)
    (_hnever : objGet (r.labels.getD []) k = none) :
    objGet ((addLabels r [(k, none)]).labels.getD []) k = some none
    ∧ (∀ p k', k' ≠ k →
        objGet (resolveLabels (withRecord t q (addLabels r [(k, none)])) p) k'
          = objGet (resolveLabels (withRecord t q r) p) k')
    ∧ (∀ s rest, q = s :: rest →
        objGet (resolveLabels (withRecord t q (addLabels r [(k, none)])) q) k = none) := by
  have hlabels : (addLabels r [(k, none)]).labels.getD [] =
      sortByKey (spread (r.labels.getD []) [(k, none)]) := rfl
  have hnodup2 : (keys (spread (r.labels.getD []) [(k, none)])).Nodup :=
    nodupKeys_spread _ _ hnodup
  have hval : objGet (spread (r.labels.getD []) [(k, none)]) k = some none := by
    rw [objGet_spread, lastGet_singleton]
  refine ⟨?_, ?_, ?_⟩
  · rw [hlabels, objGet_sortByKey _ _ hnodup2, hval]
  · intro p k' hk
    apply objGet_resolveLabels_congr
    intro q'
    by_cases hq : q' = q
    · subst hq
      have hm1 : (withRecord t q' (addLabels r [(k, none)])).meta q'
          = some (addLabels r [(k, none)]) := by
        unfold withRecord
        simp
      have hm2 : (withRecord t q' r).meta q' = some r := by
        unfold withRecord
        simp
      rw [hm1, hm2]
      show lastGet ((addLabels r [(k, none)]).labels.getD []) k'
          = lastGet (r.labels.getD []) k'
      rw [hlabels, lastGet_sortByKey _ _ hnodup2,
        lastGet_eq_objGet _ _ hnodup2, objGet_spread]
      have hnl : lastGet ([(k, none)] : Labels) k' = none := by
        rw [lastGet_cons, lastGet_nil]
        have hbf : (k == k') = false := by
          cases hc : k == k'
          · rfl
          · have hkk : k = k' := by simpa using hc
            exact absurd hkk.symm hk
        simp [hbf]
      rw [hnl, lastGet_eq_objGet _ _ hnodup]
    · have hm1 : (withRecord t q (addLabels r [(k, none)])).meta q' = t.meta q' := by
        unfold withRecord
        simp [hq]
      have hm2 : (withRecord t q r).meta q' = t.meta q' := by
        unfold withRecord
        simp [hq]
      rw [hm1, hm2]
      exact recAt_refl k' (t.meta q')
  · intro s rest hq
    subst hq
    rw [objGet_resolveLabels_cons]
    have hmeta : (withRecord t (s :: rest) (addLabels r [(k, none)])).meta (s :: rest)
        = some (addLabels r [(k, none)]) := by
      unfold withRecord
      simp
    rw [lookupMetadata_cons_some _ s rest _ hmeta]
    have hL : lastGet ((addLabels r [(k, none)]).labels.getD []) k = some none := by
      rw [hlabels, lastGet_sortByKey _ _ hnodup2, lastGet_eq_objGet _ _ hnodup2, hval]
    have hbind : ((some (addLabels r [(k, none)])).bind (fun m => m.labels)).getD []
        = (addLabels r [(k, none)]).labels.getD [] := rfl
    unfold ovApply
    rw [hbind, hL]

theorem addLabels_unset_observable_effect_witness :
    objGet ((addLabels ⟨some [("x", some "1")], none⟩ [("k", none)]).labels.getD []) "k"
        = some none
    ∧ objGet (resolveLabels
        (withRecord emptyTree [0] (addLabels ⟨some [("x", some "1")], none⟩ [("k", none)]))
        [0]) "x"
      = objGet (resolveLabels (withRecord emptyTree [0] ⟨some [("x", some "1")], none⟩) [0]) "x"
    ∧ objGet (resolveLabels
        (withRecord emptyTree [0] (addLabels ⟨some [("x", some "1")], none⟩ [("k", none)]))
        [0]) "k" = none :=
  ⟨(addLabels_unset_observable_effect emptyTree [0] ⟨some [("x", some "1")], none⟩ "k"
      (by decide) (by decide)).1,
   (addLabels_unset_observable_effect emptyTree [0] ⟨some [("x", some "1")], none⟩ "k"
      (by decide) (by decide)).2.1 [0] "x" (by decide),
   (addLabels_unset_observable_effect emptyTree [0] ⟨some [("x", some "1")], none⟩ "k"
      (by decide) (by decide)).2.2 0 [] rfl⟩

/-- Claim C8: after every sequence of `addLabels` / `removeLabel` calls on a
record, the stored overrides are in ascending lexicographic key order, and
the stored order has no effect on the mapping `resolveLabels` returns —
replacing the stored list by its key-sorted rearrangement changes no resolved
value anywhere in the tree. -/
theorem labelOverrides_sorted_and_order_cosmetic :
    (∀ ops : List Labels, ((applyOps emptyRecord ops).labels.getD []).Pairwise keyOrdered)
    ∧ (∀ (t : ScopeTree) (q : List Nat) (l : Labels) (ns : Option String)
          (p : List Nat) (k : String), (keys l).Nodup →
        objGet (resolveLabels (withRecord t q ⟨some (sortByKey l), ns⟩) p) k
          = objGet (resolveLabels (withRecord t q ⟨some l, ns⟩) p) k) := by
  constructor
  · intro ops
    apply applyOps_pairwise
    exact List.Pairwise.nil
  · intro t q l ns p k h
    apply objGet_resolveLabels_congr
    intro q'
    by_cases hq : q' = q
    · subst hq
      have hm1 : (withRecord t q' (⟨some (sortByKey l), ns⟩ : MetadataRecord)).meta q'
          = some ⟨some (sortByKey l), ns⟩ := by
        unfold withRecord
        simp
      have hm2 : (withRecord t q' (⟨some l, ns⟩ : MetadataRecord)).meta q'
          = some ⟨some l, ns⟩ := by
        unfold withRecord
        simp
      rw [hm1, hm2]
      show lastGet ((some (sortByKey l)).getD []) k = lastGet ((some l).getD []) k
      exact lastGet_sortByKey l k h
    · have hm1 : (withRecord t q (⟨some (sortByKey l), ns⟩ : MetadataRecord)).meta q'
          = t.meta q' := by
        unfold withRecord
        simp [hq]
      have hm2 : (withRecord t q (⟨some l, ns⟩ : MetadataRecord)).meta q' = t.meta q' := by
        unfold withRecord
        simp [hq]
      rw [hm1, hm2]
      exact recAt_refl k (t.meta q')

theorem labelOverrides_sorted_and_order_cosmetic_witness :
    ((applyOps emptyRecord [[("zzzz", some "1"), ("aaaa", some "2"), ("bbbb", some "3")]]).labels.getD
        []).Pairwise keyOrdered
    ∧ objGet (resolveLabels
          (withRecord emptyTree [0] ⟨some (sortByKey [("b", some "1"), ("a", some "2")]), none⟩)
          [0]) "a"
      = objGet (resolveLabels
          (withRecord emptyTree [0] ⟨some [("b", some "1"), ("a", some "2")], none⟩)
          [0]) "a" :=
  ⟨labelOverrides_sorted_and_order_cosmetic.1
      [[("zzzz", some "1"), ("aaaa", some "2"), ("bbbb", some "3")]],
   labelOverrides_sorted_and_order_cosmetic.2 emptyTree [0]
      [("b", some "1"), ("a", some "2")] none [0] "a" (by decide)⟩
